import Mathlib

/-!
# Verification of the kubecfg diff-and-reduce engine

A shallow embedding of `pkg/kubecfg/diff.go`: the decoded JSON value model,
the emptiness predicate `isEmptyValue`, the subset reducer
(`removeFields` / `removeMapFields` / `removeListFields`), the diff
formatter `formatDiff` with its two regex rewrites, and the per-resource
strategy dispatcher `Run`.

Go programs decode JSON into dynamically typed `interface\x7b\x7d` values.  We
model those by the closed inductive `GoValue`.  Go maps are modelled by
association lists (the representation invariant being that keys are
distinct); Go slices by Lean lists.  A Go panic is modelled by `Option`:
`none` is a panic propagating to the caller.  `float64` payloads are
modelled by their numeric value (the code only ever compares them with
zero).  The constructor `GoValue.other` stands for a decoded value of any
type outside the ones the code's type switches enumerate.
-/

/-- A decoded Go value as produced by `json.Unmarshal` / the unstructured
API machinery, plus `other` for values of unexpected dynamic type.
The Go code distinguishes `[]interface\x7b\x7d` from `[]string` and `float64`
from `int64`, so the model does too. -/
inductive GoValue where
  | list    : List GoValue → GoValue
  | strList : List String → GoValue
  | map     : List (String × GoValue) → GoValue
  | bool    : Bool → GoValue
  | float   : Int → GoValue
  | int     : Int → GoValue
  | str     : String → GoValue
  | null    : GoValue
  | other   : String → GoValue
deriving Repr

/-- `isEmptyValue` from diff.go: the type switch classifying a decoded value
as the zero value of its kind; the `default` branch panics, modelled by
`none`. -/
def isEmptyValue : GoValue → Option Bool
  | .list v    => some (v.length == 0)
  | .strList v => some (v.length == 0)
  | .map v     => some (v.length == 0)
  | .bool v    => some (!v)
  | .float v   => some (v == 0)
  | .int v     => some (v == 0)
  | .str v     => some (v == "")
  | .null      => some true
  | .other _   => none

/-- Spec-side: the closed set of decoded kinds the document decoder may
produce (ordered list, string-keyed mapping, string, boolean, number,
null).  Both Go list representations are ordered lists and both numeric
representations are numbers. -/
def inClosedSet : GoValue → Bool
  | .other _ => false
  | _        => true

/-- Spec-side: the zero value of each kind — empty list, empty mapping,
boolean false, numeric zero, empty string, or null. -/
def isZeroValue : GoValue → Bool
  | .list v    => v.isEmpty
  | .strList v => v.isEmpty
  | .map v     => v.isEmpty
  | .bool v    => !v
  | .float v   => v == 0
  | .int v     => v == 0
  | .str v     => v == ""
  | .null      => true
  | .other _   => false

/-- **C7.** For every value in the closed decoded set the emptiness
predicate returns exactly the zero-value classification of its kind, and
for any value outside that closed set it fails fatally (panics, modelled
by `none`) rather than returning a classification. -/
theorem isEmptyValue_characterisation (v : GoValue) :
    isEmptyValue v = if inClosedSet v then some (isZeroValue v) else none := by
  cases v <;> first
    | rfl
    | (rename_i l; cases l <;> rfl)

/-- Go map access `live[k]`, on the association-list model: the first
binding of the key, if any. -/
def lookup : List (String × GoValue) → String → Option GoValue
  | [], _ => none
  | (k, v) :: rest, key => if k = key then some v else lookup rest key

mutual
/-- `removeFields` from diff.go: dispatch on the dynamic types of the two
values; recurse when both are mappings or both are lists, otherwise return
`live` unchanged.  `none` models a Go panic propagating out. -/
def removeFields (config live : GoValue) : Option GoValue :=
  match config, live with
  | .map c, .map l   => (removeMapFields c l).map GoValue.map
  | .list c, .list l => (removeListFields c l).map GoValue.list
  | _, _             => some live
termination_by sizeOf config

/-- `removeMapFields` from diff.go: build a new mapping from the keys of
`config`; recurse where the key is also live, keep empty config values
where it is not, and never copy live-only keys. -/
def removeMapFields (config live : List (String × GoValue)) :
    Option (List (String × GoValue)) :=
  match config with
  | [] => some []
  | (k, v1) :: rest =>
    match lookup live k with
    | none =>
      match isEmptyValue v1 with
      | none => none
      | some true =>
        match removeMapFields rest live with
        | none => none
        | some rs => some ((k, v1) :: rs)
      | some false => removeMapFields rest live
    | some v2 =>
      match removeFields v1 v2 with
      | none => none
      | some r =>
        match removeMapFields rest live with
        | none => none
        | some rs => some ((k, r) :: rs)
termination_by sizeOf config
decreasing_by
  all_goals simp
  all_goals omega

/-- `removeListFields` from diff.go: a new list the length of `live`,
recursing index-wise while `config` lasts and copying the live extras
verbatim.  (The Go loop copies the remaining elements one by one once
`config` is exhausted; returning the remaining `live` suffix is the same
list.) -/
def removeListFields (config live : List GoValue) : Option (List GoValue) :=
  match config, live with
  | _, [] => some []
  | [], v2 :: l => some (v2 :: l)
  | c :: cs, v2 :: l =>
    match removeFields c v2 with
    | none => none
    | some r =>
      match removeListFields cs l with
      | none => none
      | some rs => some (r :: rs)
termination_by sizeOf config
decreasing_by
  all_goals simp
  all_goals omega
end

/-- **C2.** The list reduction returns a list of exactly the length of
`live`; element `i` is the recursive reduction of `(config[i], live[i])`
while `i` is in range of `config`, and is `live[i]` copied verbatim from
`config.length` on. -/
theorem removeListFields_spec (config live result : List GoValue)
    (h : removeListFields config live = some result) :
    result.length = live.length ∧
    (∀ (i : Nat) c v, config[i]? = some c → live[i]? = some v →
      ∃ r, removeFields c v = some r ∧ result[i]? = some r) ∧
    (∀ (i : Nat) v, config.length ≤ i → live[i]? = some v →
      result[i]? = some v) := by
  induction live generalizing config result with
  | nil =>
    rw [removeListFields] at h
    simp at h
    subst h
    refine ⟨rfl, ?_, ?_⟩ <;> intro i <;> simp
  | cons v2 l ih =>
    cases config with
    | nil =>
      rw [removeListFields] at h
      simp only [Option.some.injEq] at h
      subst h
      refine ⟨rfl, ?_, ?_⟩
      · intro i c v hc
        simp at hc
      · intro i v _ hv
        exact hv
    | cons c cs =>
      rw [removeListFields] at h
      cases hr : removeFields c v2 with
      | none => rw [hr] at h; simp at h
      | some r =>
      rw [hr] at h
      cases hrs : removeListFields cs l with
      | none => rw [hrs] at h; simp at h
      | some rs =>
      rw [hrs] at h
      simp only [Option.some.injEq] at h
      subst h
      obtain ⟨hlen, hin, hbeyond⟩ := ih cs rs hrs
      refine ⟨by simp [hlen], ?_, ?_⟩
      · intro i cc vv hc hv
        cases i with
        | zero =>
          simp only [List.getElem?_cons_zero, Option.some.injEq] at hc hv
          subst hc; subst hv
          exact ⟨r, hr, by simp⟩
        | succ j =>
          simp only [List.getElem?_cons_succ] at hc hv ⊢
          exact hin j cc vv hc hv
      · intro i v hle hv
        cases i with
        | zero => simp at hle
        | succ j =>
          simp only [List.getElem?_cons_succ] at hv ⊢
          exact hbeyond j v (by simp at hle; omega) hv

/-- Key membership in an association-list mapping. -/
def hasKey : List (String × GoValue) → String → Bool
  | [], _ => false
  | (k0, _) :: rest, k => k0 == k || hasKey rest k

/-- Distinctness of the keys of an association-list mapping: the
representation invariant of a Go map. -/
def noDupKeys : List (String × GoValue) → Bool
  | [] => true
  | (k0, _) :: rest => !hasKey rest k0 && noDupKeys rest

theorem lookup_none_of_not_hasKey {m : List (String × GoValue)} {k : String}
    (h : hasKey m k = false) : lookup m k = none := by
  induction m with
  | nil => rfl
  | cons p rest ih =>
    obtain ⟨k0, v0⟩ := p
    simp [hasKey] at h
    simp [lookup, h.1, ih h.2]

/-- **C1.** The map reduction is driven by the desired side: result keys
are a subset of `config`'s keys (so live-only keys never appear); a key
also present in `live` maps to the recursive reduction of the two values;
a key absent from `live` is kept with `config`'s value exactly when that
value is empty per the emptiness predicate and omitted otherwise. -/
theorem removeMapFields_spec (config live result : List (String × GoValue))
    (hnd : noDupKeys config = true)
    (h : removeMapFields config live = some result) :
    (∀ k : String, (lookup result k).isSome → (lookup config k).isSome) ∧
    (∀ (k : String) (v1 : GoValue), lookup config k = some v1 →
      (∀ v2, lookup live k = some v2 →
        ∃ r, removeFields v1 v2 = some r ∧ lookup result k = some r) ∧
      (lookup live k = none →
        (isEmptyValue v1 = some true → lookup result k = some v1) ∧
        (isEmptyValue v1 ≠ some true → lookup result k = none))) := by
  induction config generalizing result with
  | nil =>
    rw [removeMapFields] at h
    simp only [Option.some.injEq] at h
    subst h
    constructor
    · intro k hk
      simp [lookup] at hk
    · intro k v1 hc
      simp [lookup] at hc
  | cons p rest ih =>
    obtain ⟨k0, v0⟩ := p
    have hnd2 : noDupKeys ((k0, v0) :: rest) = true := hnd
    simp only [noDupKeys, Bool.and_eq_true, Bool.not_eq_true'] at hnd2
    obtain ⟨hk0, hnd'⟩ := hnd2
    have hrest0 : lookup rest k0 = none := lookup_none_of_not_hasKey hk0
    rw [removeMapFields] at h
    cases hlive : lookup live k0 with
    | none =>
      rw [hlive] at h
      cases hemp : isEmptyValue v0 with
      | none =>
        rw [hemp] at h
        simp at h
      | some b =>
        rw [hemp] at h
        cases b with
        | true =>
          cases hrs : removeMapFields rest live with
          | none => rw [hrs] at h; simp at h
          | some rs =>
            rw [hrs] at h
            simp only [Option.some.injEq] at h
            subst h
            obtain ⟨ihsub, ihkey⟩ := ih rs hnd' hrs
            constructor
            · intro k hk
              rw [lookup] at hk ⊢
              by_cases hkk : k0 = k
              · simp [hkk]
              · rw [if_neg hkk] at hk ⊢
                exact ihsub k hk
            · intro k v1 hc
              rw [lookup] at hc
              by_cases hkk : k0 = k
              · rw [if_pos hkk] at hc
                simp only [Option.some.injEq] at hc
                subst hc
                subst hkk
                refine ⟨?_, ?_⟩
                · intro v2 hl2
                  rw [hlive] at hl2
                  simp at hl2
                · intro _
                  refine ⟨?_, ?_⟩
                  · intro _
                    rw [lookup, if_pos rfl]
                  · intro hne
                    exact absurd hemp hne
              · rw [if_neg hkk] at hc
                obtain ⟨hin, habs⟩ := ihkey k v1 hc
                refine ⟨?_, ?_⟩
                · intro v2 hl2
                  obtain ⟨r, hr, hres⟩ := hin v2 hl2
                  exact ⟨r, hr, by rw [lookup, if_neg hkk]; exact hres⟩
                · intro hln
                  obtain ⟨h1, h2⟩ := habs hln
                  refine ⟨?_, ?_⟩
                  · intro he
                    rw [lookup, if_neg hkk]
                    exact h1 he
                  · intro he
                    rw [lookup, if_neg hkk]
                    exact h2 he
        | false =>
          simp only [] at h
          obtain ⟨ihsub, ihkey⟩ := ih result hnd' h
          constructor
          · intro k hk
            rw [lookup]
            by_cases hkk : k0 = k
            · simp [hkk]
            · rw [if_neg hkk]
              exact ihsub k hk
          · intro k v1 hc
            rw [lookup] at hc
            by_cases hkk : k0 = k
            · rw [if_pos hkk] at hc
              simp only [Option.some.injEq] at hc
              subst hc
              subst hkk
              refine ⟨?_, ?_⟩
              · intro v2 hl2
                rw [hlive] at hl2
                simp at hl2
              · intro _
                refine ⟨?_, ?_⟩
                · intro he
                  rw [hemp] at he
                  simp at he
                · intro _
                  cases hres : lookup result k0 with
                  | none => rfl
                  | some x =>
                    have hsub := ihsub k0 (by rw [hres]; rfl)
                    rw [hrest0] at hsub
                    simp at hsub
            · rw [if_neg hkk] at hc
              exact ihkey k v1 hc
    | some v2 =>
      rw [hlive] at h
      dsimp only [] at h
      cases hr : removeFields v0 v2 with
      | none => rw [hr] at h; simp at h
      | some r =>
        rw [hr] at h
        cases hrs : removeMapFields rest live with
        | none => rw [hrs] at h; simp at h
        | some rs =>
          rw [hrs] at h
          simp only [Option.some.injEq] at h
          subst h
          obtain ⟨ihsub, ihkey⟩ := ih rs hnd' hrs
          constructor
          · intro k hk
            rw [lookup] at hk ⊢
            by_cases hkk : k0 = k
            · simp [hkk]
            · rw [if_neg hkk] at hk ⊢
              exact ihsub k hk
          · intro k v1 hc
            rw [lookup] at hc
            by_cases hkk : k0 = k
            · rw [if_pos hkk] at hc
              simp only [Option.some.injEq] at hc
              subst hc
              subst hkk
              refine ⟨?_, ?_⟩
              · intro v2' hl2
                rw [hlive] at hl2
                simp only [Option.some.injEq] at hl2
                subst hl2
                exact ⟨r, hr, by rw [lookup, if_pos rfl]⟩
              · intro hln
                rw [hlive] at hln
                simp at hln
            · rw [if_neg hkk] at hc
              obtain ⟨hin, habs⟩ := ihkey k v1 hc
              refine ⟨?_, ?_⟩
              · intro v2' hl2
                obtain ⟨r', hr', hres⟩ := hin v2' hl2
                exact ⟨r', hr', by rw [lookup, if_neg hkk]; exact hres⟩
              · intro hln
                obtain ⟨h1, h2⟩ := habs hln
                refine ⟨?_, ?_⟩
                · intro he
                  rw [lookup, if_neg hkk]
                  exact h1 he
                · intro he
                  rw [lookup, if_neg hkk]
                  exact h2 he

/-- Witness for C1 on the spec's own examples: desired
`\x7b"a": 0, "b": 1\x7d` against live `\x7b"b": 1, "c": 2\x7d` — the empty-valued
absent key `a` is kept, `b` is recursively reduced, and the live-only key
`c` does not appear. -/
theorem removeMapFields_spec_witness :
    ∃ result,
      removeMapFields [("a", GoValue.int 0), ("b", GoValue.int 1)]
        [("b", GoValue.int 1), ("c", GoValue.int 2)] = some result ∧
      lookup result "a" = some (GoValue.int 0) ∧
      lookup result "b" = some (GoValue.int 1) ∧
      (lookup result "c").isSome = false := by
  have hrun : removeMapFields [("a", GoValue.int 0), ("b", GoValue.int 1)]
      [("b", GoValue.int 1), ("c", GoValue.int 2)]
      = some [("a", GoValue.int 0), ("b", GoValue.int 1)] := by
    simp [removeMapFields, removeFields, lookup, isEmptyValue]
  have hmain := removeMapFields_spec _ _ _ (by rfl) hrun
  refine ⟨[("a", GoValue.int 0), ("b", GoValue.int 1)], hrun, ?_, ?_, ?_⟩
  · exact ((hmain.2 "a" (GoValue.int 0) (by rfl)).2 (by rfl)).1 (by rfl)
  · obtain ⟨r, hr, hres⟩ :=
      (hmain.2 "b" (GoValue.int 1) (by rfl)).1 (GoValue.int 1) (by rfl)
    have hr1 : removeFields (GoValue.int 1) (GoValue.int 1)
        = some (GoValue.int 1) := by
      simp [removeFields]
    rw [hr1] at hr
    simp only [Option.some.injEq] at hr
    subst hr
    exact hres
  · cases hres : lookup [("a", GoValue.int 0), ("b", GoValue.int 1)] "c" with
    | none => rfl
    | some x =>
      have := hmain.1 "c" (by rw [hres]; rfl)
      simp [lookup] at this

mutual
/-- Well-formedness of a decoded document: every mapping anywhere inside
it has distinct keys — the invariant Go maps enjoy by construction. -/
def wfDoc : GoValue → Bool
  | .map m  => noDupKeys m && wfMap m
  | .list l => wfList l
  | _       => true
termination_by v => sizeOf v

def wfMap : List (String × GoValue) → Bool
  | [] => true
  | (_, v) :: rest => wfDoc v && wfMap rest
termination_by m => sizeOf m

def wfList : List GoValue → Bool
  | [] => true
  | v :: rest => wfDoc v && wfList rest
termination_by l => sizeOf l
end

theorem hasKey_of_mem {m : List (String × GoValue)} {k : String}
    {v : GoValue} (h : (k, v) ∈ m) : hasKey m k = true := by
  induction m with
  | nil => simp at h
  | cons p rest ih =>
    obtain ⟨k0, v0⟩ := p
    rcases List.mem_cons.mp h with h1 | h2
    · rw [hasKey]
      simp [Prod.ext_iff] at h1
      simp [h1.1]
    · rw [hasKey, ih h2]
      simp

theorem lookup_mem_of_noDup {m : List (String × GoValue)} {k : String}
    {v : GoValue} (hnd : noDupKeys m = true) (h : (k, v) ∈ m) :
    lookup m k = some v := by
  induction m with
  | nil => simp at h
  | cons p rest ih =>
    obtain ⟨k0, v0⟩ := p
    simp only [noDupKeys, Bool.and_eq_true, Bool.not_eq_true'] at hnd
    rcases List.mem_cons.mp h with h1 | h2
    · simp only [Prod.mk.injEq] at h1
      rw [lookup, if_pos h1.1.symm, h1.2]
    · have hne : k0 ≠ k := by
        intro he
        subst he
        rw [hasKey_of_mem h2] at hnd
        simp at hnd
      rw [lookup, if_neg hne]
      exact ih hnd.2 h2

theorem wfMap_mem {m : List (String × GoValue)} {k : String} {v : GoValue}
    (hwf : wfMap m = true) (h : (k, v) ∈ m) : wfDoc v = true := by
  induction m with
  | nil => simp at h
  | cons p rest ih =>
    obtain ⟨k0, v0⟩ := p
    rw [wfMap, Bool.and_eq_true] at hwf
    rcases List.mem_cons.mp h with h1 | h2
    · simp only [Prod.mk.injEq] at h1
      rw [h1.2]
      exact hwf.1
    · exact ih hwf.2 h2

theorem wfList_mem {l : List GoValue} {v : GoValue}
    (hwf : wfList l = true) (h : v ∈ l) : wfDoc v = true := by
  induction l with
  | nil => simp at h
  | cons v0 rest ih =>
    rw [wfList, Bool.and_eq_true] at hwf
    rcases List.mem_cons.mp h with h1 | h2
    · rw [h1]
      exact hwf.1
    · exact ih hwf.2 h2

theorem removeMapFields_pointwise (live : List (String × GoValue)) :
    ∀ config : List (String × GoValue),
      (∀ k v, (k, v) ∈ config →
        lookup live k = some v ∧ removeFields v v = some v) →
      removeMapFields config live = some config := by
  intro config
  induction config with
  | nil => intro _; rw [removeMapFields]
  | cons p rest ih =>
    obtain ⟨k0, v0⟩ := p
    intro hp
    obtain ⟨hl, hr⟩ := hp k0 v0 (List.mem_cons_self _ _)
    rw [removeMapFields, hl]
    dsimp only []
    rw [hr]
    dsimp only []
    rw [ih (fun k v hm => hp k v (List.mem_cons_of_mem _ hm))]

theorem removeListFields_pointwise :
    ∀ l : List GoValue, (∀ v ∈ l, removeFields v v = some v) →
      removeListFields l l = some l := by
  intro l
  induction l with
  | nil => intro _; rw [removeListFields]
  | cons v rest ih =>
    intro hp
    rw [removeListFields, hp v (List.mem_cons_self _ _)]
    dsimp only []
    rw [ih (fun w hm => hp w (List.mem_cons_of_mem _ hm))]

theorem removeFields_self_aux :
    ∀ (n : Nat) (v : GoValue), sizeOf v ≤ n → wfDoc v = true →
      removeFields v v = some v := by
  intro n
  induction n with
  | zero =>
    intro v hsz _
    exfalso
    cases v <;> simp at hsz
  | succ n ih =>
    intro v hsz hwf
    cases v with
    | map m =>
      rw [wfDoc, Bool.and_eq_true] at hwf
      rw [removeFields,
        removeMapFields_pointwise m m (fun k v hm => ?_)]
      · rfl
      refine ⟨lookup_mem_of_noDup hwf.1 hm, ?_⟩
      have h1 : sizeOf (k, v) < sizeOf m := List.sizeOf_lt_sizeOf_of_mem hm
      have h2 : sizeOf (GoValue.map m) ≤ n + 1 := hsz
      apply ih v (by simp at h1 h2 ⊢; omega)
      exact wfMap_mem hwf.2 hm
    | list l =>
      rw [wfDoc] at hwf
      rw [removeFields, removeListFields_pointwise l (fun v hm => ?_)]
      · rfl
      have h1 : sizeOf v < sizeOf l := List.sizeOf_lt_sizeOf_of_mem hm
      have h2 : sizeOf (GoValue.list l) ≤ n + 1 := hsz
      apply ih v (by simp at h2 ⊢; omega)
      exact wfList_mem hwf hm
    | strList s => simp [removeFields]
    | bool b => simp [removeFields]
    | float x => simp [removeFields]
    | int x => simp [removeFields]
    | str s => simp [removeFields]
    | null => simp [removeFields]
    | other t => simp [removeFields]

/-- **C8.** Reducing a well-formed document against itself is the
identity: `removeFields D D = some D`. -/
theorem removeFields_self (v : GoValue) (hwf : wfDoc v = true) :
    removeFields v v = some v :=
  removeFields_self_aux (sizeOf v) v (Nat.le_refl _) hwf

/-- Witness for C8: a small document with a nested mapping and list
reduces to itself. -/
theorem removeFields_self_witness :
    removeFields
      (GoValue.map [("metadata", GoValue.map [("name", GoValue.str "x")]),
        ("items", GoValue.list [GoValue.int 1, GoValue.int 2])])
      (GoValue.map [("metadata", GoValue.map [("name", GoValue.str "x")]),
        ("items", GoValue.list [GoValue.int 1, GoValue.int 2])])
    = some
      (GoValue.map [("metadata", GoValue.map [("name", GoValue.str "x")]),
        ("items", GoValue.list [GoValue.int 1, GoValue.int 2])]) :=
  removeFields_self _ (by simp [wfDoc, wfMap, wfList, noDupKeys, hasKey])

/-- The character class `[-._a-zA-Z0-9]` of the key group of the
`DiffKeyValue` regex. -/
def isKeyChar (c : Char) : Bool :=
  c = '-' || c = '.' || c = '_' || ('a' ≤ c && c ≤ 'z') ||
    ('A' ≤ c && c ≤ 'Z') || ('0' ≤ c && c ≤ '9')

/-- The character class `[[:alnum:]=+]` of the value group of the
`DiffKeyValue` regex. -/
def isValChar (c : Char) : Bool :=
  ('a' ≤ c && c ≤ 'z') || ('A' ≤ c && c ≤ 'Z') || ('0' ≤ c && c ≤ '9') ||
    c = '=' || c = '+'

/-- The RE2 class `\s`, i.e. `[\t\n\f\r ]`. -/
def isSpaceChar (c : Char) : Bool :=
  c = ' ' || c = '\t' || c = '\n' || c = '\x0C' || c = '\r'

/-- One attempt of the `DiffKeyValue` regex
`"([-._a-zA-Z0-9]+)":\s"([[:alnum:]=+]+)",?` at the head of the input:
on success returns the captured key and the input remaining after the
match (the greedy optional comma included in the match).  Since neither
character class contains `"`, the greedy `+` groups are exactly
`takeWhile`, with no backtracking. -/
def matchKV (cs : List Char) : Option (List Char × List Char) :=
  match cs with
  | [] => none
  | c0 :: cs1 =>
    if c0 = '"' then
      match cs1.dropWhile isKeyChar with
      | c1 :: c2 :: c3 :: cs2 =>
        if (cs1.takeWhile isKeyChar).length > 0 && c1 = '"' && c2 = ':'
            && isSpaceChar c3 then
          match cs2 with
          | c4 :: cs3 =>
            if c4 = '"' then
              match cs3.dropWhile isValChar with
              | d0 :: ds =>
                if (cs3.takeWhile isValChar).length > 0 && d0 = '"' then
                  match ds with
                  | ',' :: rest => some (cs1.takeWhile isKeyChar, rest)
                  | rest => some (cs1.takeWhile isKeyChar, rest)
                else none
              | [] => none
            else none
          | [] => none
        else none
      | _ => none
    else none

theorem length_dropWhile_le (p : Char → Bool) (l : List Char) :
    (l.dropWhile p).length ≤ l.length := by
  induction l with
  | nil => simp
  | cons c cs ih =>
    rw [List.dropWhile_cons]
    split
    · simp only [List.length_cons]
      omega
    · simp

theorem matchKV_rest_length {cs key rest : List Char}
    (h : matchKV cs = some (key, rest)) : rest.length < cs.length := by
  match cs with
  | [] => simp [matchKV] at h
  | c0 :: cs1 =>
    rw [matchKV] at h
    by_cases h0 : c0 = '"'
    · rw [if_pos h0] at h
      have hk := length_dropWhile_le isKeyChar cs1
      match hdk : cs1.dropWhile isKeyChar with
      | [] => rw [hdk] at h; simp at h
      | [c1] => rw [hdk] at h; simp at h
      | [c1, c2] => rw [hdk] at h; simp at h
      | c1 :: c2 :: c3 :: cs2 =>
        rw [hdk] at h
        rw [hdk] at hk
        dsimp only [] at h
        split at h
        · match cs2 with
          | [] => simp at h
          | c4 :: cs3 =>
            dsimp only [] at h
            split at h
            · have hv := length_dropWhile_le isValChar cs3
              match hdv : cs3.dropWhile isValChar with
              | [] => rw [hdv] at h; simp at h
              | d0 :: ds =>
                rw [hdv] at h
                rw [hdv] at hv
                dsimp only [] at h
                split at h
                · have hds : rest.length ≤ ds.length := by
                    split at h <;>
                      simp only [Option.some.injEq, Prod.mk.injEq] at h <;>
                      obtain ⟨_, hrest⟩ := h <;> subst hrest <;> simp
                  simp only [List.length_cons] at hk hv ⊢
                  omega
                · simp at h
            · simp at h
        · simp at h
    · rw [if_neg h0] at h
      simp at h

/-- `DiffKeyValue.ReplaceAllString(text, "$1: <omitted>")`: scan left to
right; at each position try the regex, replace a match with
`key: <omitted>` and continue after it, otherwise keep the character. -/
def redactChars : List Char → List Char
  | [] => []
  | c :: cs =>
    match h : matchKV (c :: cs) with
    | some (key, rest) => key ++ (": <omitted>".data ++ redactChars rest)
    | none => c :: redactChars cs
termination_by cs => cs.length
decreasing_by
  · exact matchKV_rest_length h
  · simp

def redactStr (s : String) : String := ⟨redactChars s.data⟩

/-- The searching loop of `DiffLineStart.ReplaceAllString(text, "$1P $2")`
after the first position: a match is a `\n` followed by any character
other than `\n` (RE2 `.` does not match newline); the replacement keeps
the newline and puts the prefix before the matched character. -/
def scanMid (pre : List Char) : List Char → List Char
  | [] => []
  | c0 :: rest =>
    if c0 = '\n' then
      match rest with
      | [] => ['\n']
      | c :: cs =>
        if c = '\n' then '\n' :: scanMid pre (c :: cs)
        else '\n' :: (pre ++ c :: scanMid pre cs)
    else c0 :: scanMid pre rest

/-- `DiffLineStart.ReplaceAllString(text, "$1P $2")` in full: the `^`
alternative can match only at the very start of the text, and only when
the first character is not a newline. -/
def replaceLineStarts (pre : List Char) (cs : List Char) : List Char :=
  match cs with
  | [] => []
  | c :: rest =>
    if c = '\n' then scanMid pre (c :: rest)
    else pre ++ c :: scanMid pre rest

/-- The segment kinds of the external diffmatchpatch library. -/
inductive DiffOp where
  | delete
  | insert
  | equal
deriving Repr, DecidableEq

/-- One segment of a computed diff: a kind and a run of text. -/
structure DiffSeg where
  op : DiffOp
  text : String
deriving Repr, DecidableEq

/-- One iteration of the `formatDiff` loop from diff.go: redact first when
`omitchanges` is set, then prefix line starts and optionally colorize by
kind; Equal segments produce no output under `omitchanges`. -/
def formatSeg (color omitchanges : Bool) (seg : DiffSeg) : String :=
  let text := if omitchanges then redactStr seg.text else seg.text
  match seg.op with
  | .insert =>
    (if color then "\x1b[32m" else "") ++
      String.mk (replaceLineStarts "+ ".data text.data) ++
      (if color then "\x1b[0m" else "")
  | .delete =>
    (if color then "\x1b[31m" else "") ++
      String.mk (replaceLineStarts "- ".data text.data) ++
      (if color then "\x1b[0m" else "")
  | .equal =>
    if !omitchanges then String.mk (replaceLineStarts "  ".data text.data)
    else ""

/-- `formatDiff` from diff.go: the buffer accumulates the per-segment
output in order. -/
def formatDiff (diffs : List DiffSeg) (color omitchanges : Bool) : String :=
  String.join (diffs.map (formatSeg color omitchanges))

/-- Spec-side: the lines of a text, split at newline separators. -/
def splitNl : List Char → List (List Char)
  | [] => [[]]
  | c :: cs =>
    if c = '\n' then [] :: splitNl cs
    else
      match splitNl cs with
      | [] => [[c]]
      | l :: ls => (c :: l) :: ls

/-- Spec-side: prefix one line, leaving a line with no characters
unchanged. -/
def markLine (pre l : List Char) : List Char :=
  if l = [] then [] else pre ++ l

/-- Spec-side: rejoin lines with newline separators. -/
def joinLines : List (List Char) → List Char
  | [] => []
  | [l] => l
  | l :: ls => l ++ '\n' :: joinLines ls

/-- Spec-side: the per-line description of the formatter's prefixing —
split into lines, prefix every nonempty line, rejoin. -/
def specPrefixLines (pre s : String) : String :=
  ⟨joinLines ((splitNl s.data).map (markLine pre.data))⟩

/-- Spec-side: the output the claim ascribes to one segment (without
color): Insert/Delete lines prefixed `+ `/`- ` after optional redaction;
Equal prefixed by two spaces, or suppressed entirely under redaction. -/
def specSegOutput (redact : Bool) (seg : DiffSeg) : String :=
  match seg.op with
  | .insert => specPrefixLines "+ " (if redact then redactStr seg.text else seg.text)
  | .delete => specPrefixLines "- " (if redact then redactStr seg.text else seg.text)
  | .equal => if redact then "" else specPrefixLines "  " seg.text

/-- Spec-side: the lines of a text with their newline terminators kept. -/
def linesKeepNl : List Char → List (List Char)
  | [] => []
  | c :: cs =>
    if c = '\n' then ['\n'] :: linesKeepNl cs
    else
      match linesKeepNl cs with
      | [] => [[c]]
      | l :: ls => (c :: l) :: ls

/-- Spec-side, the claim read literally: prefix every line, empty lines
included. -/
def prefixEveryLine (pre s : String) : String :=
  ⟨((linesKeepNl s.data).map (fun l => pre.data ++ l)).flatten⟩

/-- The suffix of the marked rejoined lines after the first line. -/
def tailMarked (pre : List Char) : List (List Char) → List Char
  | [] => []
  | l :: ls => '\n' :: (markLine pre l ++ tailMarked pre ls)

theorem joinLines_map_mark (pre : List Char) :
    ∀ (ls : List (List Char)) (l : List Char),
      joinLines ((l :: ls).map (markLine pre))
        = markLine pre l ++ tailMarked pre ls := by
  intro ls
  induction ls with
  | nil => intro l; simp [joinLines, tailMarked]
  | cons l2 ls2 ih =>
    intro l
    have ih2 := ih l2
    simp only [List.map_cons] at ih2 ⊢
    show markLine pre l ++ '\n'
        :: joinLines (markLine pre l2 :: List.map (markLine pre) ls2) = _
    rw [ih2, tailMarked]

theorem splitNl_ne_nil : ∀ cs : List Char, splitNl cs ≠ [] := by
  intro cs
  cases cs with
  | nil => simp [splitNl]
  | cons c cs' =>
    rw [splitNl]
    split
    · simp
    · split <;> simp

theorem scanMid_cons (pre : List Char) (c0 : Char) (rest : List Char) :
    scanMid pre (c0 :: rest) =
      if c0 = '\n' then
        match rest with
        | [] => ['\n']
        | c :: cs =>
          if c = '\n' then '\n' :: scanMid pre (c :: cs)
          else '\n' :: (pre ++ c :: scanMid pre cs)
      else c0 :: scanMid pre rest := by
  rw [scanMid.eq_def]

theorem scanMid_eq (pre : List Char) :
    ∀ (n : Nat) (cs : List Char), cs.length ≤ n →
      ∀ (l : List Char) (ls : List (List Char)), splitNl cs = l :: ls →
        scanMid pre cs = l ++ tailMarked pre ls := by
  intro n
  induction n with
  | zero =>
    intro cs hlen l ls hsplit
    cases cs with
    | nil =>
      rw [splitNl] at hsplit
      simp only [List.cons.injEq] at hsplit
      obtain ⟨h1, h2⟩ := hsplit
      subst h1; subst h2
      rw [scanMid, tailMarked]
      rfl
    | cons c cs' => simp at hlen
  | succ n ih =>
    intro cs hlen l ls hsplit
    cases cs with
    | nil =>
      rw [splitNl] at hsplit
      simp only [List.cons.injEq] at hsplit
      obtain ⟨h1, h2⟩ := hsplit
      subst h1; subst h2
      rw [scanMid, tailMarked]
      rfl
    | cons c0 rest =>
      simp only [List.length_cons, Nat.add_le_add_iff_right] at hlen
      by_cases h0 : c0 = '\n'
      · rw [splitNl, if_pos h0] at hsplit
        simp only [List.cons.injEq] at hsplit
        obtain ⟨h1, h2⟩ := hsplit
        subst h1
        subst h2
        rw [scanMid_cons, if_pos h0]
        cases rest with
        | nil =>
          simp [splitNl, tailMarked, markLine]
        | cons c cs' =>
          dsimp only []
          by_cases hc : c = '\n'
          · rw [if_pos hc]
            rw [splitNl, if_pos hc]
            rw [tailMarked]
            have := ih (c :: cs') hlen [] (splitNl cs') (by rw [splitNl, if_pos hc])
            rw [this]
            simp [markLine]
          · rw [if_neg hc]
            rw [splitNl, if_neg hc]
            cases hsp : splitNl cs' with
            | nil => exact absurd hsp (splitNl_ne_nil cs')
            | cons l' ls' =>
              have : scanMid pre cs' = l' ++ tailMarked pre ls' :=
                ih cs' (by simp at hlen; omega) l' ls' hsp
              rw [this, tailMarked, markLine]
              simp
      · rw [splitNl, if_neg h0] at hsplit
        cases hsp : splitNl rest with
        | nil => exact absurd hsp (splitNl_ne_nil rest)
        | cons l' ls' =>
          rw [hsp] at hsplit
          simp only [List.cons.injEq] at hsplit
          obtain ⟨h1, h2⟩ := hsplit
          subst h1
          subst h2
          rw [scanMid_cons, if_neg h0, ih rest hlen l' ls' hsp]
          rfl

theorem replaceLineStarts_eq (pre cs : List Char) :
    replaceLineStarts pre cs
      = joinLines ((splitNl cs).map (markLine pre)) := by
  cases cs with
  | nil => rw [replaceLineStarts, splitNl]; simp [joinLines, markLine]
  | cons c rest =>
    by_cases h0 : c = '\n'
    · rw [replaceLineStarts]
      simp only [if_pos h0]
      rw [splitNl, if_pos h0]
      cases hsp : splitNl rest with
      | nil => exact absurd hsp (splitNl_ne_nil rest)
      | cons l' ls' =>
        rw [joinLines_map_mark]
        have : splitNl (c :: rest) = [] :: l' :: ls' := by
          rw [splitNl, if_pos h0, hsp]
        rw [scanMid_eq pre (c :: rest).length (c :: rest) (Nat.le_refl _)
          ([]) (l' :: ls') this]
        simp [markLine]
    · rw [replaceLineStarts]
      simp only [if_neg h0]
      rw [splitNl, if_neg h0]
      cases hsp : splitNl rest with
      | nil => exact absurd hsp (splitNl_ne_nil rest)
      | cons l' ls' =>
        rw [joinLines_map_mark]
        rw [scanMid_eq pre rest.length rest (Nat.le_refl _) l' ls' hsp]
        rw [markLine]
        simp

/-- **C5 (amended).** With color off, the formatter's output is exactly
the per-segment description: every nonempty Insert/Delete line prefixed
with `+ ` / `- ` (after redaction of the segment text when active), Equal
segments prefixed with two spaces when redaction is inactive and
suppressed entirely when it is active; empty lines carry no prefix. -/
theorem formatSeg_eq_spec (red : Bool) (seg : DiffSeg) :
    formatSeg false red seg = specSegOutput red seg := by
  obtain ⟨op, text⟩ := seg
  cases op <;> cases red <;>
    simp [formatSeg, specSegOutput, specPrefixLines, ← replaceLineStarts_eq,
      redactStr]

theorem formatDiff_spec (segs : List DiffSeg) (red : Bool) :
    formatDiff segs false red = String.join (segs.map (specSegOutput red)) := by
  show String.join (segs.map (formatSeg false red)) = _
  congr 1
  induction segs with
  | nil => rfl
  | cons seg rest ih =>
    simp only [List.map_cons, ih, formatSeg_eq_spec]

/-- Counterexample for C5 as literally stated: an Insert segment whose
text is a single empty line is emitted without the `+ ` prefix, not with
it. -/
theorem formatDiff_empty_line_counterexample :
    formatDiff [⟨.insert, "\n"⟩] false false = "\n" ∧
    prefixEveryLine "+ " "\n" = "+ \n" ∧
    formatDiff [⟨.insert, "\n"⟩] false false ≠ prefixEveryLine "+ " "\n" := by
  refine ⟨rfl, rfl, by decide⟩

theorem redact_cons_some {c : Char} {cs key rest : List Char}
    (hm : matchKV (c :: cs) = some (key, rest)) :
    redactChars (c :: cs) = key ++ (": <omitted>".data ++ redactChars rest) := by
  rw [redactChars]
  split
  · rename_i key' rest' h
    rw [hm] at h
    simp only [Option.some.injEq, Prod.mk.injEq] at h
    rw [h.1, h.2]
  · rename_i h
    rw [hm] at h
    cases h

theorem redact_cons_none {c : Char} {cs : List Char}
    (hm : matchKV (c :: cs) = none) :
    redactChars (c :: cs) = c :: redactChars cs := by
  rw [redactChars]
  split
  · rename_i key' rest' h
    rw [hm] at h
    cases h
  · rfl

theorem matchKV_not_quote {c : Char} (cs : List Char) (h : c ≠ '"') :
    matchKV (c :: cs) = none := by
  rw [matchKV, if_neg h]

theorem isKeyChar_ne_quote {c : Char} (h : isKeyChar c = true) : c ≠ '"' := by
  intro he
  subst he
  simp [isKeyChar] at h

theorem isValChar_ne_quote {c : Char} (h : isValChar c = true) : c ≠ '"' := by
  intro he
  subst he
  simp [isValChar] at h

theorem isSpaceChar_ne_quote {c : Char} (h : isSpaceChar c = true) :
    c ≠ '"' := by
  intro he
  subst he
  simp [isSpaceChar] at h

theorem redact_prepend {xs : List Char} (rest : List Char)
    (h : ∀ c ∈ xs, c ≠ '"') :
    redactChars (xs ++ rest) = xs ++ redactChars rest := by
  induction xs with
  | nil => rfl
  | cons c cs ih =>
    rw [List.cons_append,
      redact_cons_none (matchKV_not_quote _ (h c (List.mem_cons_self _ _))),
      ih (fun c' hc' => h c' (List.mem_cons_of_mem _ hc')), List.cons_append]

theorem matchKV_empty_key_none (c : Char) (rest : List Char)
    (hc : isKeyChar c = false) : matchKV ('"' :: c :: rest) = none := by
  rw [matchKV, if_pos rfl,
    List.dropWhile_cons_of_neg (by rw [hc]; simp),
    List.takeWhile_cons_of_neg (by rw [hc]; simp)]
  cases rest with
  | nil => rfl
  | cons x r =>
    cases r with
    | nil => rfl
    | cons y r2 => simp

theorem dropWhile_keyChar_no_quote (t : List Char)
    (hq : ∀ c ∈ t, c ≠ '"') :
    (t ++ ['"']).dropWhile isKeyChar = ['"'] ∨
    ∃ e s, (t ++ ['"']).dropWhile isKeyChar = e :: s ∧ e ≠ '"' := by
  induction t with
  | nil =>
    left
    rw [List.nil_append, List.dropWhile_cons_of_neg (by simp [isKeyChar])]
  | cons e t' ih =>
    by_cases he : isKeyChar e = true
    · rw [List.cons_append, List.dropWhile_cons_of_pos he]
      exact ih (fun c hc => hq c (List.mem_cons_of_mem _ hc))
    · right
      refine ⟨e, t' ++ ['"'], ?_, hq e (List.mem_cons_self _ _)⟩
      rw [List.cons_append, List.dropWhile_cons_of_neg he]

theorem matchKV_open_quote_none (t : List Char) (hq : ∀ c ∈ t, c ≠ '"') :
    matchKV ('"' :: (t ++ ['"'])) = none := by
  rw [matchKV, if_pos rfl]
  rcases dropWhile_keyChar_no_quote t hq with hd | ⟨e, s, hd, hne⟩
  · rw [hd]
  · rw [hd]
    cases s with
    | nil => rfl
    | cons f s2 =>
      cases s2 with
      | nil => rfl
      | cons g s3 => simp [hne]

/-- The positive half of the `matchKV` computation: a fragment of the
exact regex shape matches, capturing the key and consuming everything. -/
theorem matchKV_frame (key : List Char) (w : Char) (val : List Char)
    (hk : key ≠ []) (hkc : ∀ c ∈ key, isKeyChar c = true)
    (hw : isSpaceChar w = true)
    (hv : val ≠ []) (hvc : ∀ c ∈ val, isValChar c = true) :
    matchKV ('"' :: (key ++ '"' :: ':' :: w :: '"' :: (val ++ ['"'])))
      = some (key, []) := by
  rw [matchKV, if_pos rfl,
    List.dropWhile_append_of_pos hkc, List.takeWhile_append_of_pos hkc,
    List.dropWhile_cons_of_neg (by simp [isKeyChar]),
    List.takeWhile_cons_of_neg (by simp [isKeyChar])]
  dsimp only []
  rw [List.dropWhile_append_of_pos hvc, List.takeWhile_append_of_pos hvc,
    List.dropWhile_cons_of_neg (by simp [isValChar]),
    List.takeWhile_cons_of_neg (by simp [isValChar])]
  have hkl : 0 < key.length := List.length_pos.mpr hk
  have hvl : 0 < val.length := List.length_pos.mpr hv
  simp [hw, hkl, hvl]

/-- The negative half of the `matchKV` computation: a value containing a
character outside `[[:alnum:]=+]` (that is not itself a quote) defeats
the match at the opening quote. -/
theorem matchKV_frame_badval (key : List Char) (w : Char)
    (v1 v2 : List Char) (d : Char)
    (hkc : ∀ c ∈ key, isKeyChar c = true)
    (hv1 : ∀ c ∈ v1, isValChar c = true)
    (hd : isValChar d = false) (hdq : d ≠ '"') :
    matchKV ('"' :: (key ++ '"' :: ':' :: w :: '"' :: ((v1 ++ d :: v2) ++ ['"'])))
      = none := by
  rw [matchKV, if_pos rfl,
    List.dropWhile_append_of_pos hkc, List.takeWhile_append_of_pos hkc,
    List.dropWhile_cons_of_neg (by simp [isKeyChar]),
    List.takeWhile_cons_of_neg (by simp [isKeyChar])]
  dsimp only []
  rw [List.append_assoc, List.cons_append,
    List.dropWhile_append_of_pos hv1, List.takeWhile_append_of_pos hv1,
    List.dropWhile_cons_of_neg (by rw [hd]; simp),
    List.takeWhile_cons_of_neg (by rw [hd]; simp)]
  simp [hdq]

/-- **C10 (amended).** Under redaction, a fragment of the exact shape —
quoted key over `[-._a-zA-Z0-9]`, colon, one whitespace, quoted value
over `[[:alnum:]=+]` — is rewritten to `key: <omitted>`, while a
fragment whose value contains a character that is outside that class and
is not itself a double quote is left entirely untouched.  (A double
quote inside the value is genuinely different: it closes the value
early, so a shorter fragment can still match and be rewritten — see the
counterexample below.) -/
theorem redactKV_shape :
    (∀ (key : List Char) (w : Char) (val : List Char),
      key ≠ [] → (∀ c ∈ key, isKeyChar c = true) →
      isSpaceChar w = true → val ≠ [] → (∀ c ∈ val, isValChar c = true) →
      redactChars ('"' :: (key ++ '"' :: ':' :: w :: '"' :: (val ++ ['"'])))
        = key ++ ": <omitted>".data) ∧
    (∀ (key : List Char) (w : Char) (v1 v2 : List Char) (d : Char),
      (∀ c ∈ key, isKeyChar c = true) → isSpaceChar w = true →
      (∀ c ∈ v1, isValChar c = true) → isValChar d = false → d ≠ '"' →
      (∀ c ∈ v2, c ≠ '"') →
      redactChars
          ('"' :: (key ++ '"' :: ':' :: w :: '"' :: ((v1 ++ d :: v2) ++ ['"'])))
        = '"' :: (key ++ '"' :: ':' :: w :: '"' :: ((v1 ++ d :: v2) ++ ['"']))) := by
  constructor
  · intro key w val hk hkc hw hv hvc
    rw [redact_cons_some (matchKV_frame key w val hk hkc hw hv hvc),
      redactChars]
    simp
  · intro key w v1 v2 d hkc hw hv1 hd hdq hv2
    have hvq : ∀ c ∈ v1 ++ d :: v2, c ≠ '"' := by
      intro c hc
      rcases List.mem_append.mp hc with h1 | h2
      · exact isValChar_ne_quote (hv1 c h1)
      · rcases List.mem_cons.mp h2 with h3 | h4
        · rw [h3]; exact hdq
        · exact hv2 c h4
    rw [redact_cons_none (matchKV_frame_badval key w v1 v2 d hkc hv1 hd hdq)]
    congr 1
    rw [redact_prepend _ (fun c hc => isKeyChar_ne_quote (hkc c hc)),
      redact_cons_none (matchKV_empty_key_none ':' _ (by simp [isKeyChar]))]
    congr 1
    congr 1
    rw [redact_cons_none (matchKV_not_quote _ (by simp [isKeyChar]))]
    congr 1
    rw [redact_cons_none (matchKV_not_quote _ (isSpaceChar_ne_quote hw))]
    congr 1
    rw [redact_cons_none (matchKV_open_quote_none _ hvq)]
    congr 1
    rw [redact_prepend _ hvq,
      redact_cons_none (by rw [matchKV]; rfl), redactChars]

/-- Witness for C10: the fragment `"token": "abc12="` is rewritten to
`token: <omitted>`, while `"token": "a b"` (space in the value) is left
verbatim. -/
theorem redactKV_shape_witness :
    redactChars ('"' :: ("token".data ++ '"' :: ':' :: ' ' :: '"'
        :: ("abc12=".data ++ ['"'])))
      = "token".data ++ ": <omitted>".data ∧
    redactChars ('"' :: ("token".data ++ '"' :: ':' :: ' ' :: '"'
        :: (("a".data ++ ' ' :: "b".data) ++ ['"'])))
      = '"' :: ("token".data ++ '"' :: ':' :: ' ' :: '"'
        :: (("a".data ++ ' ' :: "b".data) ++ ['"'])) := by
  constructor
  · exact redactKV_shape.1 "token".data ' ' "abc12=".data (by decide)
      (by decide) (by decide) (by decide) (by decide)
  · exact redactKV_shape.2 "token".data ' ' "a".data "b".data ' '
      (by decide) (by decide) (by decide) (by decide) (by decide) (by decide)

/-- Counterexample for C10 as frozen: the claim counts a double quote
among the value characters that force verbatim emission, but in
`"key": "a"b"` the inner quote closes the value early, the regex matches
the shorter fragment `"key": "a"` and the text is partially rewritten to
`key: <omitted>b"` — not emitted verbatim. -/
theorem redact_quote_value_counterexample :
    redactChars "\"key\": \"a\"b\"".data = "key: <omitted>b\"".data ∧
    redactChars "\"key\": \"a\"b\"".data ≠ "\"key\": \"a\"b\"".data := by
  have e0 : redactChars ([] : List Char) = [] := by rw [redactChars]
  have e3 : redactChars "\"".data = '"' :: redactChars [] :=
    redact_cons_none (by decide)
  have e2 : redactChars "b\"".data = 'b' :: redactChars "\"".data :=
    redact_cons_none (by decide)
  have e1 : redactChars "\"key\": \"a\"b\"".data
      = "key".data ++ (": <omitted>".data ++ redactChars "b\"".data) :=
    redact_cons_some (by decide)
  rw [e1, e2, e3, e0]
  constructor
  · decide
  · decide

/-- Witness for C2 on the spec's own example: desired `[1]`,
live `[1, 2]`; the reduced live list has length 2 and index 1 is copied
verbatim. -/
theorem removeListFields_spec_witness :
    ∃ result, removeListFields [GoValue.int 1] [GoValue.int 1, GoValue.int 2] = some result ∧
      result.length = 2 ∧ result[1]? = some (GoValue.int 2) := by
  refine ⟨[GoValue.int 1, GoValue.int 2], by simp [removeListFields, removeFields], ?_, ?_⟩
  · exact (removeListFields_spec [GoValue.int 1] [GoValue.int 1, GoValue.int 2]
      [GoValue.int 1, GoValue.int 2] (by simp [removeListFields, removeFields])).1
  · exact (removeListFields_spec [GoValue.int 1] [GoValue.int 1, GoValue.int 2]
      [GoValue.int 1, GoValue.int 2] (by simp [removeListFields, removeFields])).2.2 1
      (GoValue.int 2) (by simp) (by simp)

/-- The diff strategy of a run.  `DiffCmd.DiffStrategy` is a string in Go:
`"update"` and `"subset"` select those branches and any other value takes
the plain (strict) path. -/
inductive Strategy where
  | strict
  | subset
  | update
deriving Repr, DecidableEq

/-- What fetching the live document for one resource yields: a document,
a not-found signal, or a hard fetch error. -/
inductive FetchResult where
  | notFound
  | found (live : List (String × GoValue))
  | fetchErr (msg : String)

/-- A desired resource document together with the identity fields the
dispatcher reads (`GetName`, `GetKind`); `value` is `obj.Object`. -/
structure KObject where
  name : String
  kind : String
  value : List (String × GoValue)

/-- One resource of a run: the desired object and the outcome of fetching
its live counterpart. -/
structure Resource where
  obj : KObject
  live : FetchResult

/-- Modelled from the spec: the external collaborators `DiffCmd.Run` uses
that are outside this file — canonical serialization
(`json.MarshalIndent`, which can fail: `none`), the schema lookup plus
schema-aware merge `patch` of the Update strategy, the creation-timestamp
normalization and annotation stripping of the API-object layer, semantic
deep equality, terminal detection on stdout, and the OpenAPI schema load
performed before the loop. -/
structure RunEnv where
  serialize : GoValue → Option String
  mergePatch : List (String × GoValue) → List (String × GoValue) →
    Except String (List (String × GoValue))
  tsIsZero : List (String × GoValue) → Bool
  setTsZero : List (String × GoValue) → List (String × GoValue)
  stripAnn : List (String × GoValue) → List (String × GoValue)
  deepEqual : List (String × GoValue) → List (String × GoValue) → Bool
  stdoutTty : Bool
  schemaLoadErr : Option String

/-- How a run ends: `ok` is a nil error, `diffFound` is `ErrDiffFound`,
the remaining constructors are the early error returns; `panicked` models
a reducer panic propagating out of `Run`. -/
inductive RunOutcome where
  | ok
  | diffFound
  | nameMissing (kind : String)
  | fetchFailed (desc msg : String)
  | mergeFailed (msg : String)
  | schemaFailed (msg : String)
  | panicked
deriving Repr, DecidableEq

/-- Modelled from the spec: the two-part resource descriptor
(`utils.ResourceNameFor` and `utils.FqName` live outside this file). -/
def descOf (o : KObject) : String := o.kind ++ " " ++ o.name

/-- Modelled from the spec: the external line-diff pipeline
(`DiffLinesToChars` / `DiffMain` / `DiffCharsToLines` of the go-diff
library), used as a black box whose contract is: identical inputs yield
exactly one Equal segment spanning the whole text; otherwise a correct
edit script whose Delete side concatenates to the left text and whose
Insert side concatenates to the right text. -/
def computeDiff (s1 s2 : String) : List DiffSeg :=
  if s1 = s2 then [⟨.equal, s1⟩] else [⟨.delete, s1⟩, ⟨.insert, s2⟩]

/-- The fast-path test of lines 135 and 161:
`len(diff) == 1 && diff[0].Type == DiffEqual`. -/
def isSingleEqual (diff : List DiffSeg) : Bool :=
  match diff with
  | [d] => d.op == DiffOp.equal
  | _ => false

/-- The per-resource loop of `DiffCmd.Run` (lines 73-168), with the
accumulated `diffFound` flag threaded explicitly.  The returned list is
the sequence of strings written to `out`, in order; resources are given
in the caller-established sort order.  Under the Update strategy the
branch ends in `return nil` (line 142), and the semantic-equality fast
path also returns from the whole function (line 119), so the loop never
reaches the remaining resources. -/
def runLoop (env : RunEnv) (strategy : Strategy) (omitSecrets : Bool) :
    List Resource → Bool → List String × RunOutcome
  | [], diffFound => ([], if diffFound then .diffFound else .ok)
  | r :: rest, diffFound =>
    let desc := descOf r.obj
    if r.obj.name = "" then ([], .nameMissing r.obj.kind)
    else
      match r.live with
      | .fetchErr msg => ([], .fetchFailed desc msg)
      | .notFound =>
        let next := runLoop env strategy omitSecrets rest true
        ("---\n" :: ("- live " ++ desc ++ "\n+ config " ++ desc ++ "\n") ::
          (desc ++ " doesn't exist on server\n") :: next.1, next.2)
      | .found liveObj =>
        let header := ["---\n",
          "- live " ++ desc ++ "\n+ config " ++ desc ++ "\n"]
        match strategy with
        | .update =>
          match env.mergePatch liveObj r.obj.value with
          | .error msg => (header, .mergeFailed msg)
          | .ok merged =>
            let live1 :=
              if env.tsIsZero merged then env.setTsZero liveObj else liveObj
            if env.deepEqual live1 merged then (header, .ok)
            else
              let live2 := env.stripAnn live1
              let merged2 := env.stripAnn merged
              let liveText := (env.serialize (.map live2)).getD ""
              let mergedText := (env.serialize (.map merged2)).getD ""
              let diff := computeDiff liveText mergedText
              if isSingleEqual diff then
                (header ++ [desc ++ " unchanged\n"], .ok)
              else
                (header ++ [formatDiff diff env.stdoutTty
                  (omitSecrets && r.obj.kind == "Secret") ++ "\n"], .ok)
        | _ =>
          let liveOpt : Option (List (String × GoValue)) :=
            if strategy = .subset then removeMapFields r.obj.value liveObj
            else some liveObj
          match liveOpt with
          | none => (header, .panicked)
          | some liveObjObject =>
            let liveText := (env.serialize (.map liveObjObject)).getD ""
            let objText := (env.serialize (.map r.obj.value)).getD ""
            let diff := computeDiff liveText objText
            if isSingleEqual diff then
              let next := runLoop env strategy omitSecrets rest diffFound
              (header ++ (desc ++ " unchanged\n") :: next.1, next.2)
            else
              let next := runLoop env strategy omitSecrets rest true
              (header ++ (formatDiff diff env.stdoutTty
                (omitSecrets && r.obj.kind == "Secret") ++ "\n") :: next.1,
                next.2)

/-- `DiffCmd.Run`: load the OpenAPI schema (aborting on failure), then
process the sorted resources with the difference accumulator starting
false. -/
def Run (env : RunEnv) (strategy : Strategy) (omitSecrets : Bool)
    (objs : List Resource) : List String × RunOutcome :=
  match env.schemaLoadErr with
  | some msg => ([], .schemaFailed msg)
  | none => runLoop env strategy omitSecrets objs false

/-- **C6.** If the two compared documents have identical canonical
serializations, the computed diff is exactly one Equal segment spanning
the whole text, and on it the dispatcher writes the fixed "unchanged"
line after the header instead of invoking the formatter, recording no
difference for the run. -/
theorem unchanged_fast_path (env : RunEnv) (os : Bool)
    (name kind : String) (lv dv : List (String × GoValue)) (t : String)
    (hschema : env.schemaLoadErr = none)
    (hname : ¬ name = "")
    (hl : env.serialize (.map lv) = some t)
    (hd : env.serialize (.map dv) = some t) :
    computeDiff t t = [⟨.equal, t⟩] ∧
    Run env .strict os [⟨⟨name, kind, dv⟩, .found lv⟩]
      = (["---\n",
          "- live " ++ (kind ++ " " ++ name) ++ "\n+ config "
            ++ (kind ++ " " ++ name) ++ "\n",
          (kind ++ " " ++ name) ++ " unchanged\n"], .ok) := by
  constructor
  · rw [computeDiff, if_pos rfl]
  · rw [Run, hschema]
    simp [runLoop, descOf, hname, hl, hd, computeDiff, isSingleEqual]

/-- A concrete environment instantiating the external collaborators: the
serializer distinguishes the empty mapping ("A") from all other values
("B"); the merge returns the desired document; no timestamp
normalization, no annotation stripping, deep equality always false, no
terminal, schema loads fine. -/
def sampleEnv : RunEnv where
  serialize := fun v => match v with | .map [] => some "A" | _ => some "B"
  mergePatch := fun _ o => .ok o
  tsIsZero := fun _ => false
  setTsZero := fun l => l
  stripAnn := fun l => l
  deepEqual := fun _ _ => false
  stdoutTty := false
  schemaLoadErr := none

/-- Witness for C6: a resource whose live and desired documents both
serialize to "A" takes the unchanged fast path. -/
theorem unchanged_fast_path_witness :
    computeDiff "A" "A" = [⟨.equal, "A"⟩] ∧
    Run sampleEnv .strict false [⟨⟨"x", "ConfigMap", []⟩, .found []⟩]
      = (["---\n",
          "- live " ++ ("ConfigMap" ++ " " ++ "x") ++ "\n+ config "
            ++ ("ConfigMap" ++ " " ++ "x") ++ "\n",
          ("ConfigMap" ++ " " ++ "x") ++ " unchanged\n"], .ok) :=
  unchanged_fast_path sampleEnv false "x" "ConfigMap" [] [] "A" rfl
    (by decide) rfl rfl

/-- **C3 (the code violates it).** Under the Update strategy the loop body
ends in `return nil`: with two differing resources only the first is
processed — the output contains the first resource's header and diff and
nothing at all for the second, and the run result is a plain nil. -/
theorem update_strategy_stops_after_first :
    Run sampleEnv .update false
        [⟨⟨"x", "ConfigMap", [("a", GoValue.int 1)]⟩, .found []⟩,
         ⟨⟨"y", "ConfigMap", [("b", GoValue.int 2)]⟩, .found []⟩]
      = (["---\n", "- live ConfigMap x\n+ config ConfigMap x\n",
          "- A+ B\n"], .ok) := by
  rfl

/-- **C4 (the code violates the iff).** First conjunct: under the Update
strategy a resource that differs produces a formatted diff yet `Run`
returns nil, not the differences-found signal.  Second conjunct: the
not-found path does behave as claimed — it emits the fixed line, records
a difference, continues with the next resource, and the final result is
the differences-found signal even though the second resource is
unchanged. -/
theorem diffFound_signal_lost_under_update :
    Run sampleEnv .update false
        [⟨⟨"z", "ConfigMap", [("c", GoValue.int 3)]⟩, .found []⟩]
      = (["---\n", "- live ConfigMap z\n+ config ConfigMap z\n",
          "- A+ B\n"], .ok) ∧
    Run sampleEnv .strict false
        [⟨⟨"w", "ConfigMap", []⟩, .notFound⟩,
         ⟨⟨"x", "ConfigMap", []⟩, .found []⟩]
      = (["---\n", "- live ConfigMap w\n+ config ConfigMap w\n",
          "ConfigMap w doesn't exist on server\n",
          "---\n", "- live ConfigMap x\n+ config ConfigMap x\n",
          "ConfigMap x unchanged\n"], .diffFound) := by
  constructor <;> rfl

/-- The same environment with a serializer that always fails, as
`json.MarshalIndent` does on unmarshalable values. -/
def failSerializeEnv : RunEnv :=
  { sampleEnv with serialize := fun _ => none }

/-- **C9 (the code violates it).** `liveObjText, _ := json.MarshalIndent(...)`
discards the serialization error: with a serializer that fails on both
documents, `Run` silently diffs two empty texts and reports a completely
different resource as "unchanged" with a nil result instead of
propagating a fatal error. -/
theorem serialize_error_silently_ignored :
    Run failSerializeEnv .strict false
        [⟨⟨"x", "ConfigMap", [("a", GoValue.int 1)]⟩,
          .found [("b", GoValue.int 2)]⟩]
      = (["---\n", "- live ConfigMap x\n+ config ConfigMap x\n",
          "ConfigMap x unchanged\n"], .ok) := by
  rfl
